import Mathlib

/-!
Verification of the yuka autonomous-agent simulation core against its
specification.  The steering, kinematics, path and goal components are
modelled from the specification text (their sources are not part of the
repository snapshot); the quaternion math is translated directly from
src/src/math/Quaternion.js.
-/

namespace Yuka

/-- A 3D vector, as used for positions, velocities and steering forces. -/
structure Vec3 where
  x : ℝ
  y : ℝ
  z : ℝ

/-- The zero vector. -/
def Vec3.zero : Vec3 := ⟨0, 0, 0⟩

/-- Componentwise vector addition. -/
def Vec3.add (a b : Vec3) : Vec3 := ⟨a.x + b.x, a.y + b.y, a.z + b.z⟩

/-- Scalar multiplication of a vector. -/
def Vec3.smul (s : ℝ) (v : Vec3) : Vec3 := ⟨s * v.x, s * v.y, s * v.z⟩

/-- Euclidean magnitude of a vector. -/
noncomputable def Vec3.length (v : Vec3) : ℝ :=
  Real.sqrt (v.x ^ 2 + v.y ^ 2 + v.z ^ 2)

/-- Modelled from the spec: clipping a vector so that its magnitude is capped
at m (SteeringManager truncation; the SteeringManager source is not in the
repository snapshot).  A vector whose magnitude exceeds m is rescaled to
magnitude m; otherwise it is returned unchanged. -/
noncomputable def Vec3.truncate (v : Vec3) (m : ℝ) : Vec3 :=
  if m < v.length then Vec3.smul (m / v.length) v else v

/-- Modelled from the spec: a steering behavior with its active flag, its
weight and the force contribution it computes for the current tick (the
SteeringBehavior source is not in the repository snapshot). -/
structure SteeringBehavior where
  active : Bool
  weight : ℝ
  force : Vec3

/-- Modelled from the spec: the truncated running sum of the Steering
Manager.  Each active behavior contribution, scaled by its weight, is added
to the running total in insertion order; as soon as the magnitude of the
running total reaches maxForce the total is clipped to magnitude at most
maxForce and all later behaviors are skipped (the SteeringManager source is
not in the repository snapshot). -/
noncomputable def accumulate (maxForce : ℝ) : List SteeringBehavior → Vec3 → Vec3
  | [], acc => acc
  | b :: rest, acc =>
      if b.active then
        let acc2 := acc.add (Vec3.smul b.weight b.force)
        if maxForce ≤ acc2.length then acc2.truncate maxForce
        else accumulate maxForce rest acc2
      else accumulate maxForce rest acc

/-- Modelled from the spec: SteeringManager.calculate, producing one bounded
force per tick from the ordered behavior list (source not in the repository
snapshot). -/
noncomputable def calculate (maxForce : ℝ) (behaviors : List SteeringBehavior) : Vec3 :=
  accumulate maxForce behaviors Vec3.zero

theorem Vec3.length_nonneg (v : Vec3) : 0 ≤ v.length := Real.sqrt_nonneg _

theorem Vec3.length_zero : Vec3.zero.length = 0 := by
  simp [Vec3.length, Vec3.zero]

theorem Vec3.length_smul (s : ℝ) (v : Vec3) : (Vec3.smul s v).length = |s| * v.length := by
  simp only [Vec3.length, Vec3.smul]
  rw [show (s * v.x) ^ 2 + (s * v.y) ^ 2 + (s * v.z) ^ 2
        = s ^ 2 * (v.x ^ 2 + v.y ^ 2 + v.z ^ 2) by ring]
  rw [Real.sqrt_mul (sq_nonneg s), Real.sqrt_sq_eq_abs]

theorem Vec3.zero_add (v : Vec3) : Vec3.zero.add v = v := by
  simp [Vec3.add, Vec3.zero]

theorem Vec3.add_zero (v : Vec3) : v.add Vec3.zero = v := by
  simp [Vec3.add, Vec3.zero]

theorem Vec3.smul_zero_vec (s : ℝ) : Vec3.smul s Vec3.zero = Vec3.zero := by
  simp [Vec3.smul, Vec3.zero]

theorem Vec3.truncate_length_le (v : Vec3) (m : ℝ) (hm : 0 ≤ m) :
    (v.truncate m).length ≤ m := by
  unfold Vec3.truncate
  by_cases h : m < v.length
  · have hv : 0 < v.length := lt_of_le_of_lt hm h
    rw [if_pos h, Vec3.length_smul]
    rw [abs_of_nonneg (div_nonneg hm (le_of_lt hv))]
    rw [div_mul_cancel₀ _ (ne_of_gt hv)]
  · rw [if_neg h]
    exact le_of_not_lt h

theorem accumulate_length_le (maxForce : ℝ) (hm : 0 ≤ maxForce) :
    ∀ (bs : List SteeringBehavior) (acc : Vec3), acc.length ≤ maxForce →
      (accumulate maxForce bs acc).length ≤ maxForce := by
  intro bs
  induction bs with
  | nil => intro acc h; simpa [accumulate] using h
  | cons b rest ih =>
      intro acc h
      unfold accumulate
      by_cases hb : b.active
      · simp only [hb, if_true]
        by_cases hstop : maxForce ≤ (acc.add (Vec3.smul b.weight b.force)).length
        · simp only [hstop, if_true]
          exact Vec3.truncate_length_le _ _ hm
        · simp only [hstop, if_false]
          exact ih _ (le_of_not_le hstop)
      · simp only [hb, if_false]
        exact ih _ h

/-- Claim C1: for every Steering Manager and tick, calculate accumulates the
weighted contributions of active behaviors in insertion order as a truncated
running sum: the magnitude of the combined force never exceeds maxForce, and
for behaviors B1 and B2 added in that order where the weighted contribution
of B1 already reaches maxForce in magnitude, the computed total equals the
magnitude-maxForce clamp of that contribution and B2 contributes nothing. -/
theorem steering_truncated_running_sum (maxForce : ℝ) (hm : 0 ≤ maxForce) :
    (∀ behaviors : List SteeringBehavior,
        (calculate maxForce behaviors).length ≤ maxForce) ∧
    (∀ b1 b2 : SteeringBehavior, b1.active = true →
        maxForce ≤ (Vec3.smul b1.weight b1.force).length →
        calculate maxForce [b1, b2]
          = (Vec3.smul b1.weight b1.force).truncate maxForce) := by
  constructor
  · intro behaviors
    refine accumulate_length_le maxForce hm behaviors Vec3.zero ?_
    rw [Vec3.length_zero]; exact hm
  · intro b1 b2 h1 hreach
    unfold calculate accumulate
    simp only [h1, if_true, Vec3.zero_add]
    rw [if_pos hreach]

theorem steering_truncated_running_sum_witness :
    (calculate 3 [⟨true, 1, ⟨3, 0, 0⟩⟩, ⟨true, 1, ⟨0, 1, 0⟩⟩]).length ≤ 3 ∧
    calculate 3 [⟨true, 1, ⟨3, 0, 0⟩⟩, ⟨true, 1, ⟨0, 1, 0⟩⟩]
      = (Vec3.smul 1 ⟨3, 0, 0⟩).truncate 3 := by
  have h := steering_truncated_running_sum 3 (by norm_num)
  refine ⟨h.1 _, h.2 ⟨true, 1, ⟨3, 0, 0⟩⟩ ⟨true, 1, ⟨0, 1, 0⟩⟩ rfl ?_⟩
  have hl : (Vec3.smul (1 : ℝ) ⟨3, 0, 0⟩).length = 3 := by
    simp only [Vec3.smul, Vec3.length, one_mul]
    rw [show (3 : ℝ) ^ 2 + 0 ^ 2 + 0 ^ 2 = 3 ^ 2 by norm_num]
    exact Real.sqrt_sq (by norm_num)
  rw [hl]

/-- Modelled from the spec: the Kinematic Agent with its movement limits and
its ordered list of steering behaviors (the Vehicle source is not in the
repository snapshot). -/
structure KinematicAgent where
  position : Vec3
  velocity : Vec3
  mass : ℝ
  maxSpeed : ℝ
  maxForce : ℝ
  behaviors : List SteeringBehavior

/-- Modelled from the spec: one integration step of the Kinematic Agent.
The combined steering force is divided by the mass, the resulting
acceleration scaled by delta is added to the velocity, the velocity is
hard-clamped to magnitude maxSpeed when it exceeds maxSpeed, and the
position advances by velocity scaled by delta (the Vehicle.update source is
not in the repository snapshot). -/
noncomputable def KinematicAgent.update (a : KinematicAgent) (delta : ℝ) : KinematicAgent :=
  let force := calculate a.maxForce a.behaviors
  let acceleration := Vec3.smul (1 / a.mass) force
  let v1 := a.velocity.add (Vec3.smul delta acceleration)
  let v2 := v1.truncate a.maxSpeed
  { a with velocity := v2, position := a.position.add (Vec3.smul delta v2) }

/-- Claim C2: after every integration step, the magnitude of the velocity of
the agent is at most maxSpeed. -/
theorem velocity_le_maxSpeed (a : KinematicAgent) (delta : ℝ) (hs : 0 ≤ a.maxSpeed) :
    ((a.update delta).velocity).length ≤ a.maxSpeed := by
  unfold KinematicAgent.update
  exact Vec3.truncate_length_le _ _ hs

theorem velocity_le_maxSpeed_witness :
    ((KinematicAgent.update ⟨Vec3.zero, Vec3.zero, 1, 1, 1, []⟩ 1).velocity).length ≤ 1 :=
  velocity_le_maxSpeed ⟨Vec3.zero, Vec3.zero, 1, 1, 1, []⟩ 1 (by norm_num)

/-- Modelled from the spec: a Path is an ordered, optionally looping sequence
of waypoints with current-index tracking (the Path source is not in the
repository snapshot). -/
structure Path where
  waypoints : List Vec3
  loop : Bool
  index : ℕ

/-- Modelled from the spec: Path.add appends a waypoint (the Path source is
not in the repository snapshot). -/
def Path.add (p : Path) (w : Vec3) : Path :=
  { p with waypoints := p.waypoints ++ [w] }

/-- Modelled from the spec: Path.advance moves the current index forward by
one; at the end of the sequence it wraps to index 0 when loop is set and
otherwise stays clamped at the last valid index (the Path source is not in
the repository snapshot). -/
def Path.advance (p : Path) : Path :=
  if p.waypoints.length ≤ p.index + 1 then
    if p.loop then { p with index := 0 }
    else { p with index := p.waypoints.length - 1 }
  else { p with index := p.index + 1 }

/-- Modelled from the spec: Path.current returns the waypoint at the current
index and fails with an EmptyPath condition, rendered as none, when no
waypoints exist (the Path source is not in the repository snapshot). -/
def Path.current (p : Path) : Option Vec3 :=
  if p.waypoints.isEmpty then none else p.waypoints.get? p.index

/-- The current index addresses a valid waypoint whenever the sequence is
non-empty. -/
def Path.wf (p : Path) : Prop :=
  p.index < p.waypoints.length ∨ (p.waypoints = [] ∧ p.index = 0)

theorem Path.advance_waypoints (p : Path) : (p.advance).waypoints = p.waypoints := by
  unfold Path.advance
  by_cases h1 : p.waypoints.length ≤ p.index + 1 <;> by_cases h2 : p.loop <;>
    simp [h1, h2]

theorem Path.advance_loop (p : Path) : (p.advance).loop = p.loop := by
  unfold Path.advance
  by_cases h1 : p.waypoints.length ≤ p.index + 1 <;> by_cases h2 : p.loop <;>
    simp [h1, h2]

theorem Path.iterate_advance_waypoints (p : Path) (k : ℕ) :
    (Path.advance^[k] p).waypoints = p.waypoints := by
  induction k with
  | zero => rfl
  | succ n ih =>
      rw [Function.iterate_succ_apply', Path.advance_waypoints, ih]

theorem Path.iterate_advance_loop (p : Path) (k : ℕ) :
    (Path.advance^[k] p).loop = p.loop := by
  induction k with
  | zero => rfl
  | succ n ih =>
      rw [Function.iterate_succ_apply', Path.advance_loop, ih]

theorem Path.advance_index_of_lt (p : Path) (h : p.index + 1 < p.waypoints.length) :
    (p.advance).index = p.index + 1 := by
  unfold Path.advance
  have hlt : ¬ p.waypoints.length ≤ p.index + 1 := by omega
  simp [hlt]

theorem Path.iterate_advance_index (p : Path) (k : ℕ) (h0 : p.index = 0)
    (hk : k < p.waypoints.length) : (Path.advance^[k] p).index = k := by
  induction k with
  | zero => simpa using h0
  | succ n ih =>
      have hn : n < p.waypoints.length := Nat.lt_of_succ_lt hk
      have hidx : (Path.advance^[n] p).index = n := ih hn
      rw [Function.iterate_succ_apply']
      rw [Path.advance_index_of_lt _ ?_, hidx]
      rw [hidx, Path.iterate_advance_waypoints]
      exact hk

theorem Path.advance_index_clamp (p : Path) (hl : p.loop = false)
    (h : p.waypoints.length ≤ p.index + 1) :
    (p.advance).index = p.waypoints.length - 1 := by
  unfold Path.advance
  simp [h, hl]

theorem Path.advance_index_wrap (p : Path) (hl : p.loop = true)
    (h : p.waypoints.length ≤ p.index + 1) : (p.advance).index = 0 := by
  unfold Path.advance
  simp [h, hl]

theorem Path.iterate_stay_last (q : Path) (hl : q.loop = false)
    (hq : q.index = q.waypoints.length - 1) :
    ∀ j, (Path.advance^[j] q).index = q.waypoints.length - 1 := by
  intro j
  induction j with
  | zero => simpa using hq
  | succ n ih =>
      rw [Function.iterate_succ_apply']
      have h1 : (Path.advance^[n] q).loop = false := by
        rw [Path.iterate_advance_loop]; exact hl
      have h2 : (Path.advance^[n] q).waypoints = q.waypoints :=
        Path.iterate_advance_waypoints q n
      have h3 : (Path.advance^[n] q).waypoints.length ≤ (Path.advance^[n] q).index + 1 := by
        rw [h2, ih]; omega
      rw [Path.advance_index_clamp _ h1 h3, h2]

/-- Claim C5: for a non-looping Path with N waypoints and current index 0,
N minus one advances leave the current index at N minus one, and every
further advance leaves it there; for a looping Path with N waypoints the
N-th advance from index 0 wraps the current index back to 0. -/
theorem path_advance_clamps_and_wraps (p : Path) (N : ℕ)
    (hN : p.waypoints.length = N) (h1 : 1 ≤ N) (h0 : p.index = 0) :
    (p.loop = false →
        (Path.advance^[N - 1] p).index = N - 1 ∧
        ∀ j, (Path.advance^[j] (Path.advance^[N - 1] p)).index = N - 1) ∧
    (p.loop = true → (Path.advance^[N] p).index = 0) := by
  have hidx : (Path.advance^[N - 1] p).index = N - 1 :=
    Path.iterate_advance_index p (N - 1) h0 (by omega)
  constructor
  · intro hl
    refine ⟨hidx, ?_⟩
    intro j
    have hstay := Path.iterate_stay_last (Path.advance^[N - 1] p)
      (by rw [Path.iterate_advance_loop]; exact hl)
      (by rw [Path.iterate_advance_waypoints, hN]; exact hidx) j
    rw [hstay, Path.iterate_advance_waypoints, hN]
  · intro hl
    have hsplit : N = (N - 1) + 1 := by omega
    rw [hsplit, Function.iterate_succ_apply']
    apply Path.advance_index_wrap
    · rw [Path.iterate_advance_loop]; exact hl
    · rw [Path.iterate_advance_waypoints, hN, hidx]
      omega

theorem path_advance_clamps_and_wraps_witness :
    (Path.advance^[1] ⟨[Vec3.zero, Vec3.zero], false, 0⟩).index = 1 ∧
    (Path.advance^[1] (Path.advance^[1] ⟨[Vec3.zero, Vec3.zero], false, 0⟩)).index = 1 ∧
    (Path.advance^[2] ⟨[Vec3.zero, Vec3.zero], true, 0⟩).index = 0 := by
  have h1 := path_advance_clamps_and_wraps ⟨[Vec3.zero, Vec3.zero], false, 0⟩ 2
    rfl (by norm_num) rfl
  have h2 := path_advance_clamps_and_wraps ⟨[Vec3.zero, Vec3.zero], true, 0⟩ 2
    rfl (by norm_num) rfl
  exact ⟨(h1.1 rfl).1, (h1.1 rfl).2 1, h2.2 rfl⟩

/-- Modelled from the spec: the force contribution of a path-following
behavior.  With an empty path there is no defined contribution and the
behavior contributes zero force (the FollowPathBehavior source is not in the
repository snapshot; the force formula for a non-empty path is out of scope
of the spec and abstracted as a seek toward the current waypoint). -/
noncomputable def followPathForce (p : Path) (agentPosition : Vec3) : Vec3 :=
  match p.current with
  | none => Vec3.zero
  | some w => w.add (Vec3.smul (-1) agentPosition)

/-- Claim C6: current on an empty Path fails with the EmptyPath condition,
a path-following behavior with an empty Path contributes zero force without
aborting the accumulation loop of the Steering Manager, and on well-formed
paths the current index always addresses a valid waypoint when the sequence
is non-empty (well-formedness holds initially and is preserved by add and
advance). -/
theorem path_current_empty_and_valid :
    (∀ p : Path, p.waypoints = [] → p.current = none) ∧
    (∀ p : Path, p.wf → p.waypoints ≠ [] →
        ∃ h : p.index < p.waypoints.length,
          p.current = some (p.waypoints.get ⟨p.index, h⟩)) ∧
    (∀ b : Bool, (Path.mk [] b 0).wf) ∧
    (∀ p : Path, p.wf → ∀ w, (p.add w).wf ∧ (p.advance).wf) ∧
    (∀ (p : Path) (pos : Vec3) (wgt maxF : ℝ)
        (rest : List SteeringBehavior) (acc : Vec3),
        p.waypoints = [] → acc.length < maxF →
        followPathForce p pos = Vec3.zero ∧
        accumulate maxF (⟨true, wgt, followPathForce p pos⟩ :: rest) acc
          = accumulate maxF rest acc) := by
  have hempty : ∀ p : Path, p.waypoints = [] → p.current = none := by
    intro p h
    simp [Path.current, h]
  refine ⟨hempty, ?_, ?_, ?_, ?_⟩
  · intro p hwf hne
    have hlt : p.index < p.waypoints.length := by
      rcases hwf with h | h
      · exact h
      · exact absurd h.1 hne
    refine ⟨hlt, ?_⟩
    have hnotempty : p.waypoints.isEmpty = false := by
      cases hw : p.waypoints with
      | nil => exact absurd hw hne
      | cons a l => rfl
    rw [Path.current, hnotempty]
    simp [List.get?_eq_get hlt]
  · intro b
    exact Or.inr ⟨rfl, rfl⟩
  · intro p hwf w
    constructor
    · unfold Path.wf Path.add at *
      rcases hwf with h | h
      · left
        simp only [List.length_append, List.length_cons]
        omega
      · left
        simp [h.1, h.2]
    · unfold Path.wf Path.advance at *
      by_cases h1 : p.waypoints.length ≤ p.index + 1
      · by_cases h2 : p.loop
        · by_cases h3 : p.waypoints = []
          · simp [h1, h2, h3]
          · have := List.length_pos.mpr h3
            simp [h1, h2]
            omega
        · by_cases h3 : p.waypoints = []
          · simp [h1, h2, h3]
          · have := List.length_pos.mpr h3
            simp [h1, h2]
            omega
      · simp [h1]
        omega
  · intro p pos wgt maxF rest acc hpe hacc
    have hforce : followPathForce p pos = Vec3.zero := by
      rw [followPathForce, hempty p hpe]
    refine ⟨hforce, ?_⟩
    rw [accumulate]
    simp only [if_true]
    rw [hforce, Vec3.smul_zero_vec, Vec3.add_zero]
    rw [if_neg (not_le.mpr hacc)]

theorem path_current_empty_and_valid_witness :
    Path.current ⟨[], false, 0⟩ = none ∧
    accumulate 1 [⟨true, 2, followPathForce ⟨[], false, 0⟩ Vec3.zero⟩] Vec3.zero
      = accumulate 1 [] Vec3.zero := by
  have h := path_current_empty_and_valid
  refine ⟨h.1 ⟨[], false, 0⟩ rfl,
    (h.2.2.2.2 ⟨[], false, 0⟩ Vec3.zero 2 1 [] Vec3.zero rfl ?_).2⟩
  rw [Vec3.length_zero]; norm_num

/-- Modelled from the spec: the four goal statuses. -/
inductive Status where
  | inactive
  | active
  | completed
  | failed
deriving DecidableEq, Repr

/-- Modelled from the spec: a sub-goal as observed by a Composite Goal (the
Goal source is not in the repository snapshot).  The script abstracts the
goal-specific execute body: it gives the status the goal reports after its
k-th execute call.  The counters nAct and nTerm record how often the
activate and terminate hooks have run. -/
structure LeafGoal where
  script : ℕ → Status
  execCount : ℕ
  status : Status
  nAct : ℕ
  nTerm : ℕ

/-- Modelled from the spec: if the status is INACTIVE, call activate and set
the status to ACTIVE; otherwise do nothing (the Goal.activateIfInactive
source is not in the repository snapshot). -/
def LeafGoal.activateIfInactive (g : LeafGoal) : LeafGoal :=
  if g.status = Status.inactive then
    { g with status := Status.active, nAct := g.nAct + 1 }
  else g

/-- Modelled from the spec: one execute call of a goal; the resulting status
is produced by the goal-specific body, abstracted by the script (the
Goal.execute source is not in the repository snapshot). -/
def LeafGoal.execute (g : LeafGoal) : LeafGoal :=
  { g with status := g.script g.execCount, execCount := g.execCount + 1 }

/-- Modelled from the spec: the terminate hook of a goal (the Goal.terminate
source is not in the repository snapshot). -/
def LeafGoal.terminate (g : LeafGoal) : LeafGoal :=
  { g with nTerm := g.nTerm + 1 }

/-- Modelled from the spec: clearing a sub-goal stack terminates every
remaining sub-goal via its terminate hook and discards it (the
CompositeGoal.clearSubgoals source is not in the repository snapshot). -/
def clearSubgoals (stack : List LeafGoal) : List LeafGoal :=
  stack.map LeafGoal.terminate

/-- Modelled from the spec: CompositeGoal.executeSubgoals with the
pop-and-defer policy (the CompositeGoal source is not in the repository
snapshot).  An empty stack completes.  Otherwise the top sub-goal is
activated if inactive and executed once; a COMPLETED top is terminated and
popped (the composite completes when it was the only entry and otherwise
stays active until the next tick); a FAILED top causes the whole stack to be
cleared with every sub-goal terminated and the composite fails; otherwise
the composite stays active with an unchanged stack.  The middle component
collects the discarded sub-goals in their final states. -/
def executeSubgoalsFull : List LeafGoal → List LeafGoal × List LeafGoal × Status
  | [] => ([], [], Status.completed)
  | top :: rest =>
      let t2 := top.activateIfInactive.execute
      match t2.status with
      | Status.completed =>
          if rest.isEmpty then ([], [t2.terminate], Status.completed)
          else (rest, [t2.terminate], Status.active)
      | Status.failed => ([], clearSubgoals (t2 :: rest), Status.failed)
      | _ => (t2 :: rest, [], Status.active)

/-- Modelled from the spec: the composite goal state visible to its owner. -/
structure CompositeGoal where
  stack : List LeafGoal
  status : Status

/-- Modelled from the spec: one tick of a composite goal, as driven by its
owner; the stack is processed once and the composite status is derived from
the outcome (the CompositeGoal.execute source is not in the repository
snapshot). -/
def CompositeGoal.execute (c : CompositeGoal) : CompositeGoal :=
  let r := executeSubgoalsFull c.stack
  { stack := r.1, status := r.2.2 }

theorem LeafGoal.aii_script (g : LeafGoal) :
    g.activateIfInactive.script = g.script := by
  unfold LeafGoal.activateIfInactive; split <;> rfl

theorem LeafGoal.aii_execCount (g : LeafGoal) :
    g.activateIfInactive.execCount = g.execCount := by
  unfold LeafGoal.activateIfInactive; split <;> rfl

theorem LeafGoal.aii_nTerm (g : LeafGoal) :
    g.activateIfInactive.nTerm = g.nTerm := by
  unfold LeafGoal.activateIfInactive; split <;> rfl

theorem LeafGoal.execute_status (g : LeafGoal) :
    g.execute.status = g.script g.execCount := rfl

theorem LeafGoal.execute_nAct (g : LeafGoal) : g.execute.nAct = g.nAct := rfl

theorem LeafGoal.execute_nTerm (g : LeafGoal) : g.execute.nTerm = g.nTerm := rfl

theorem LeafGoal.aiiexec_status (g : LeafGoal) :
    g.activateIfInactive.execute.status = g.script g.execCount := by
  rw [LeafGoal.execute_status, LeafGoal.aii_script, LeafGoal.aii_execCount]

theorem LeafGoal.aiiexec_nTerm (g : LeafGoal) :
    g.activateIfInactive.execute.nTerm = g.nTerm := by
  rw [LeafGoal.execute_nTerm, LeafGoal.aii_nTerm]

theorem executeSubgoalsFull_failed (top : LeafGoal) (rest : List LeafGoal)
    (h : (top.activateIfInactive.execute).status = Status.failed) :
    executeSubgoalsFull (top :: rest)
      = ([], (top.activateIfInactive.execute).terminate :: clearSubgoals rest,
          Status.failed) := by
  simp only [executeSubgoalsFull, h, clearSubgoals, List.map_cons]

/-- Claim C7: activateIfInactive calls activate and sets the status to
ACTIVE exactly when the status is INACTIVE, and is a no-op otherwise; two
calls in a row without an intervening status change invoke activate only
once. -/
theorem activateIfInactive_idempotent (g : LeafGoal) :
    (g.status = Status.inactive →
        g.activateIfInactive
          = { g with status := Status.active, nAct := g.nAct + 1 }) ∧
    (g.status ≠ Status.inactive → g.activateIfInactive = g) ∧
    g.activateIfInactive.activateIfInactive = g.activateIfInactive ∧
    g.activateIfInactive.activateIfInactive.nAct = g.activateIfInactive.nAct := by
  have hpos : g.status = Status.inactive →
      g.activateIfInactive
        = { g with status := Status.active, nAct := g.nAct + 1 } := by
    intro h
    unfold LeafGoal.activateIfInactive
    rw [if_pos h]
  have hneg : ∀ q : LeafGoal, q.status ≠ Status.inactive →
      q.activateIfInactive = q := by
    intro q h
    unfold LeafGoal.activateIfInactive
    rw [if_neg h]
  have hidem : g.activateIfInactive.activateIfInactive = g.activateIfInactive := by
    by_cases h : g.status = Status.inactive
    · rw [hpos h]
      exact hneg _ (by simp)
    · rw [hneg g h]
      exact hneg g h
  exact ⟨hpos, hneg g, hidem, by rw [hidem]⟩

theorem activateIfInactive_idempotent_witness :
    (LeafGoal.activateIfInactive (LeafGoal.activateIfInactive
        ⟨fun _ => Status.active, 0, Status.inactive, 0, 0⟩))
      = LeafGoal.activateIfInactive
          ⟨fun _ => Status.active, 0, Status.inactive, 0, 0⟩ ∧
    LeafGoal.activateIfInactive ⟨fun _ => Status.active, 0, Status.inactive, 0, 0⟩
      = ⟨fun _ => Status.active, 0, Status.active, 1, 0⟩ := by
  have h := activateIfInactive_idempotent
    ⟨fun _ => Status.active, 0, Status.inactive, 0, 0⟩
  exact ⟨h.2.2.1, h.1 rfl⟩

theorem LeafGoal.aii_nAct_of_inactive (g : LeafGoal) (h : g.status = Status.inactive) :
    g.activateIfInactive.nAct = g.nAct + 1 := by
  unfold LeafGoal.activateIfInactive
  rw [if_pos h]

/-- Claim C3: when the top sub-goal has status FAILED after its execute,
executeSubgoals clears the entire sub-goal stack, terminating each remaining
sub-goal, and the composite status becomes FAILED; for sub-goals A and B in
that order where A fails on its first execute, one tick empties the stack,
A is activated and terminated exactly once, siblings are terminated, and the
composite status is FAILED. -/
theorem subgoal_failure_clears_stack :
    (∀ (top : LeafGoal) (rest : List LeafGoal),
        (top.activateIfInactive.execute).status = Status.failed →
        (executeSubgoalsFull (top :: rest)).1 = [] ∧
        (executeSubgoalsFull (top :: rest)).2.2 = Status.failed ∧
        (executeSubgoalsFull (top :: rest)).2.1.map LeafGoal.nTerm
          = (top.nTerm + 1) :: rest.map (fun g => g.nTerm + 1)) ∧
    (∀ A B : LeafGoal, A.status = Status.inactive →
        A.script A.execCount = Status.failed →
        ((CompositeGoal.mk [A, B] Status.active).execute).stack = [] ∧
        ((CompositeGoal.mk [A, B] Status.active).execute).status = Status.failed ∧
        (executeSubgoalsFull [A, B]).2.1.map
            (fun g => (g.status, g.nAct, g.nTerm))
          = [(Status.failed, A.nAct + 1, A.nTerm + 1),
             (B.status, B.nAct, B.nTerm + 1)]) := by
  have part1 : ∀ (top : LeafGoal) (rest : List LeafGoal),
      (top.activateIfInactive.execute).status = Status.failed →
      (executeSubgoalsFull (top :: rest)).1 = [] ∧
      (executeSubgoalsFull (top :: rest)).2.2 = Status.failed ∧
      (executeSubgoalsFull (top :: rest)).2.1.map LeafGoal.nTerm
        = (top.nTerm + 1) :: rest.map (fun g => g.nTerm + 1) := by
    intro top rest h
    rw [executeSubgoalsFull_failed top rest h]
    refine ⟨rfl, rfl, ?_⟩
    simp only [List.map_cons, clearSubgoals, List.map_map]
    rw [show (top.activateIfInactive.execute).terminate.nTerm
        = (top.activateIfInactive.execute).nTerm + 1 from rfl]
    rw [LeafGoal.aiiexec_nTerm]
    rfl
  refine ⟨part1, ?_⟩
  intro A B hA hfail
  have hstat : (A.activateIfInactive.execute).status = Status.failed := by
    rw [LeafGoal.aiiexec_status]
    exact hfail
  have e := executeSubgoalsFull_failed A [B] hstat
  refine ⟨?_, ?_, ?_⟩
  · show (executeSubgoalsFull [A, B]).1 = []
    rw [e]
  · show (executeSubgoalsFull [A, B]).2.2 = Status.failed
    rw [e]
  · rw [e]
    simp only [List.map_cons, clearSubgoals, List.map_map, List.map_nil]
    have h1 : (A.activateIfInactive.execute).terminate.status = Status.failed := hstat
    have h2 : (A.activateIfInactive.execute).terminate.nAct = A.nAct + 1 := by
      rw [show (A.activateIfInactive.execute).terminate.nAct
          = A.activateIfInactive.execute.nAct from rfl]
      rw [LeafGoal.execute_nAct, LeafGoal.aii_nAct_of_inactive A hA]
    have h3 : (A.activateIfInactive.execute).terminate.nTerm = A.nTerm + 1 := by
      rw [show (A.activateIfInactive.execute).terminate.nTerm
          = A.activateIfInactive.execute.nTerm + 1 from rfl]
      rw [LeafGoal.aiiexec_nTerm]
    rw [h1, h2, h3]
    rfl

theorem subgoal_failure_clears_stack_witness :
    ((CompositeGoal.mk
        [⟨fun _ => Status.failed, 0, Status.inactive, 0, 0⟩,
         ⟨fun _ => Status.active, 0, Status.inactive, 0, 0⟩]
        Status.active).execute).stack = [] ∧
    ((CompositeGoal.mk
        [⟨fun _ => Status.failed, 0, Status.inactive, 0, 0⟩,
         ⟨fun _ => Status.active, 0, Status.inactive, 0, 0⟩]
        Status.active).execute).status = Status.failed := by
  have h := (subgoal_failure_clears_stack).2
    ⟨fun _ => Status.failed, 0, Status.inactive, 0, 0⟩
    ⟨fun _ => Status.active, 0, Status.inactive, 0, 0⟩ rfl rfl
  exact ⟨h.1, h.2.1⟩

theorem LeafGoal.aii_of_not_inactive (g : LeafGoal) (h : g.status ≠ Status.inactive) :
    g.activateIfInactive = g := by
  unfold LeafGoal.activateIfInactive
  rw [if_neg h]

theorem LeafGoal.execute_script (g : LeafGoal) : g.execute.script = g.script := rfl

/-- Modelled from the spec: well-formedness of a sub-goal sitting in a
composite stack: its execute body never reports INACTIVE, and its activate
and terminate counters are balanced with its status — an INACTIVE goal has
as many terminations as activations (all activation cycles closed) while an
ACTIVE goal has exactly one open activation cycle. -/
def WFgoal (g : LeafGoal) : Prop :=
  (∀ k, g.script k ≠ Status.inactive) ∧
  ((g.status = Status.inactive ∧ g.nTerm = g.nAct) ∨
   (g.status = Status.active ∧ g.nAct = g.nTerm + 1))

theorem clearSubgoals_balance (stack : List LeafGoal)
    (h : ∀ g ∈ stack, WFgoal g) :
    ∀ g ∈ clearSubgoals stack, g.status ≠ Status.inactive → g.nTerm = g.nAct := by
  intro g hg hne
  rcases List.mem_map.mp hg with ⟨g0, hg0, rfl⟩
  have hwf := h g0 hg0
  rcases hwf.2 with ⟨hs, hc⟩ | ⟨hs, hc⟩
  · exact absurd ((show g0.terminate.status = g0.status from rfl).trans hs) hne
  · rw [show g0.terminate.nTerm = g0.nTerm + 1 from rfl,
        show g0.terminate.nAct = g0.nAct from rfl, hc]

/-- Claim C4: whenever a goal leaves the ACTIVE status through any path of a
composite tick (completion, failure, or a forced clear from outside), its
terminate hook runs exactly once for that activation cycle: every discarded
goal that had been activated ends with termination count equal to activation
count, while goals remaining in the stack keep balanced counters with at
most one open cycle and receive no terminate call. -/
theorem terminate_exactly_once :
    (∀ stack : List LeafGoal, (∀ g ∈ stack, WFgoal g) →
        (∀ g ∈ (executeSubgoalsFull stack).1, WFgoal g) ∧
        (∀ g ∈ (executeSubgoalsFull stack).2.1,
            g.status ≠ Status.inactive → g.nTerm = g.nAct)) ∧
    (∀ stack : List LeafGoal, (∀ g ∈ stack, WFgoal g) →
        ∀ g ∈ clearSubgoals stack,
          g.status ≠ Status.inactive → g.nTerm = g.nAct) := by
  refine ⟨?_, clearSubgoals_balance⟩
  intro stack h
  cases stack with
  | nil =>
      constructor
      · intro g hg
        simp [executeSubgoalsFull] at hg
      · intro g hg
        simp [executeSubgoalsFull] at hg
  | cons top rest =>
      have hwtop := h top (List.mem_cons_self _ _)
      have hrest : ∀ g ∈ rest, WFgoal g := fun g hg => h g (List.mem_cons_of_mem _ hg)
      have hopen : (top.activateIfInactive.execute).nAct
          = (top.activateIfInactive.execute).nTerm + 1 := by
        rw [LeafGoal.execute_nAct, LeafGoal.execute_nTerm, LeafGoal.aii_nTerm]
        rcases hwtop.2 with ⟨hs, hc⟩ | ⟨hs, hc⟩
        · rw [LeafGoal.aii_nAct_of_inactive top hs, hc]
        · rw [LeafGoal.aii_of_not_inactive top (by rw [hs]; decide)]
          exact hc
      have hscript : ∀ k, (top.activateIfInactive.execute).script k
          ≠ Status.inactive := by
        intro k
        rw [LeafGoal.execute_script, LeafGoal.aii_script]
        exact hwtop.1 k
      have hne : (top.activateIfInactive.execute).status ≠ Status.inactive := by
        rw [LeafGoal.aiiexec_status]
        exact hwtop.1 _
      cases hst : (top.activateIfInactive.execute).status with
      | inactive => exact absurd hst hne
      | completed =>
          have e : executeSubgoalsFull (top :: rest)
              = if rest.isEmpty then
                  ([], [(top.activateIfInactive.execute).terminate],
                    Status.completed)
                else (rest, [(top.activateIfInactive.execute).terminate],
                    Status.active) := by
            simp only [executeSubgoalsFull, hst]
          by_cases hr : rest.isEmpty
          · rw [e, if_pos hr]
            refine ⟨by intro g hg; simp at hg, ?_⟩
            intro g hg hgne
            rw [List.mem_singleton] at hg
            subst hg
            rw [show (top.activateIfInactive.execute).terminate.nTerm
                = (top.activateIfInactive.execute).nTerm + 1 from rfl,
              show (top.activateIfInactive.execute).terminate.nAct
                = (top.activateIfInactive.execute).nAct from rfl, hopen]
          · rw [e, if_neg hr]
            refine ⟨hrest, ?_⟩
            intro g hg hgne
            rw [List.mem_singleton] at hg
            subst hg
            rw [show (top.activateIfInactive.execute).terminate.nTerm
                = (top.activateIfInactive.execute).nTerm + 1 from rfl,
              show (top.activateIfInactive.execute).terminate.nAct
                = (top.activateIfInactive.execute).nAct from rfl, hopen]
      | failed =>
          rw [executeSubgoalsFull_failed top rest hst]
          refine ⟨by intro g hg; simp at hg, ?_⟩
          intro g hg hgne
          rcases List.mem_cons.mp hg with hhead | htail
          · subst hhead
            rw [show (top.activateIfInactive.execute).terminate.nTerm
                = (top.activateIfInactive.execute).nTerm + 1 from rfl,
              show (top.activateIfInactive.execute).terminate.nAct
                = (top.activateIfInactive.execute).nAct from rfl, hopen]
          · exact clearSubgoals_balance rest hrest g htail hgne
      | active =>
          have e : executeSubgoalsFull (top :: rest)
              = ((top.activateIfInactive.execute) :: rest, [], Status.active) := by
            simp only [executeSubgoalsFull, hst]
          rw [e]
          refine ⟨?_, by intro g hg; simp at hg⟩
          intro g hg
          rcases List.mem_cons.mp hg with hhead | htail
          · subst hhead
            exact ⟨hscript, Or.inr ⟨hst, hopen⟩⟩
          · exact hrest g htail

theorem terminate_exactly_once_witness :
    (∀ g ∈ (executeSubgoalsFull
        [⟨fun _ => Status.completed, 0, Status.inactive, 0, 0⟩]).2.1,
        g.status ≠ Status.inactive → g.nTerm = g.nAct) ∧
    (∀ g ∈ clearSubgoals
        [⟨fun _ => Status.completed, 0, Status.inactive, 0, 0⟩],
        g.status ≠ Status.inactive → g.nTerm = g.nAct) := by
  have hwf : ∀ g ∈ [(⟨fun _ => Status.completed, 0, Status.inactive, 0, 0⟩
      : LeafGoal)], WFgoal g := by
    intro g hg
    rw [List.mem_singleton] at hg
    subst hg
    exact ⟨by intro k; simp, Or.inl ⟨rfl, rfl⟩⟩
  have h := terminate_exactly_once
  exact ⟨(h.1 _ hwf).2, h.2 _ hwf⟩

/-- A quaternion with real components, translated from
src/src/math/Quaternion.js. -/
structure Quaternion where
  x : ℝ
  y : ℝ
  z : ℝ
  w : ℝ

/-- Modelled from the spec: the clamp helper of the math collaborator
(Math.js is not in the repository snapshot); clamps value into the closed
interval from lo to hi. -/
def clamp (value lo hi : ℝ) : ℝ := max lo (min value hi)

/-- Quaternion.dot, translated from src/src/math/Quaternion.js. -/
def Quaternion.dot (a b : Quaternion) : ℝ :=
  a.x * b.x + a.y * b.y + a.z * b.z + a.w * b.w

/-- Quaternion.squaredLength, translated from src/src/math/Quaternion.js. -/
def Quaternion.squaredLength (q : Quaternion) : ℝ := q.dot q

/-- Quaternion.length, translated from src/src/math/Quaternion.js. -/
noncomputable def Quaternion.length (q : Quaternion) : ℝ :=
  Real.sqrt q.squaredLength

/-- Quaternion.normalize, translated from src/src/math/Quaternion.js: a
zero-length quaternion becomes the identity quaternion, otherwise every
component is multiplied by the reciprocal length. -/
noncomputable def Quaternion.normalize (q : Quaternion) : Quaternion :=
  if q.length = 0 then ⟨0, 0, 0, 1⟩
  else ⟨q.x * (1 / q.length), q.y * (1 / q.length),
        q.z * (1 / q.length), q.w * (1 / q.length)⟩

/-- Quaternion.angleTo, translated from src/src/math/Quaternion.js. -/
noncomputable def Quaternion.angleTo (p q : Quaternion) : ℝ :=
  2 * Real.arccos |clamp (p.dot q) (-1) 1|

/-- The two-argument arctangent with the semantics of the JS math library. -/
noncomputable def atan2 (b a : ℝ) : ℝ :=
  if 0 < a then Real.arctan (b / a)
  else if a < 0 then
    (if 0 ≤ b then Real.arctan (b / a) + Real.pi
     else Real.arctan (b / a) - Real.pi)
  else (if 0 < b then Real.pi / 2 else if b < 0 then -(Real.pi / 2) else 0)

/-- Quaternion.slerp, translated from src/src/math/Quaternion.js, including
the early returns at t equal to 0 and 1, the shortest-path sign flip of the
target, the aligned early return, and the linear midpoint fallback when
sinHalfTheta is below 0.001. -/
noncomputable def Quaternion.slerp (p q : Quaternion) (t : ℝ) : Quaternion :=
  if t = 0 then p
  else if t = 1 then q
  else
    let c0 := p.w * q.w + p.x * q.x + p.y * q.y + p.z * q.z
    let u := if c0 < 0 then Quaternion.mk (-q.x) (-q.y) (-q.z) (-q.w) else q
    let cosHalfTheta := if c0 < 0 then -c0 else c0
    if 1 ≤ cosHalfTheta then p
    else
      let sinHalfTheta := Real.sqrt (1 - cosHalfTheta ^ 2)
      if |sinHalfTheta| < 0.001 then
        ⟨0.5 * (p.x + u.x), 0.5 * (p.y + u.y),
         0.5 * (p.z + u.z), 0.5 * (p.w + u.w)⟩
      else
        let halfTheta := atan2 sinHalfTheta cosHalfTheta
        let ratioA := Real.sin ((1 - t) * halfTheta) / sinHalfTheta
        let ratioB := Real.sin (t * halfTheta) / sinHalfTheta
        ⟨p.x * ratioA + u.x * ratioB, p.y * ratioA + u.y * ratioB,
         p.z * ratioA + u.z * ratioB, p.w * ratioA + u.w * ratioB⟩

/-- Quaternion.rotateTo, translated from src/src/math/Quaternion.js. -/
noncomputable def Quaternion.rotateTo (p q : Quaternion) (step : ℝ) : Quaternion :=
  let angle := p.angleTo q
  if angle = 0 then p
  else p.slerp q (min 1 (step / angle))

theorem Quaternion.dot_comm (p q : Quaternion) : p.dot q = q.dot p := by
  unfold Quaternion.dot
  ring

theorem Quaternion.squaredLength_nonneg (q : Quaternion) : 0 ≤ q.squaredLength := by
  have h : q.squaredLength = q.x ^ 2 + q.y ^ 2 + q.z ^ 2 + q.w ^ 2 := by
    unfold Quaternion.squaredLength Quaternion.dot
    ring
  rw [h]
  positivity

/-- Claim C10: angleTo always returns a value in the closed interval from 0
to pi, because the dot product is clamped to the interval from -1 to 1 and
passed through the absolute value before the arccosine, and angleTo is
symmetric in its two arguments. -/
theorem angleTo_range_and_symm (p q : Quaternion) :
    0 ≤ p.angleTo q ∧ p.angleTo q ≤ Real.pi ∧ p.angleTo q = q.angleTo p := by
  refine ⟨?_, ?_, ?_⟩
  · exact mul_nonneg (by norm_num) (Real.arccos_nonneg _)
  · have h := Real.arccos_le_pi_div_two.mpr (abs_nonneg (clamp (p.dot q) (-1) 1))
    unfold Quaternion.angleTo
    linarith
  · unfold Quaternion.angleTo
    rw [Quaternion.dot_comm]

/-- Claim C9: normalizing a zero-length quaternion yields the identity
quaternion, and for nonzero length every component is divided by the length,
which produces a unit quaternion, so the division is never performed on
zero. -/
theorem normalize_zero_yields_identity :
    (∀ q : Quaternion, q.length = 0 →
        q.normalize = ⟨0, 0, 0, 1⟩) ∧
    (∀ q : Quaternion, q.length ≠ 0 →
        q.normalize = ⟨q.x * (1 / q.length), q.y * (1 / q.length),
          q.z * (1 / q.length), q.w * (1 / q.length)⟩ ∧
        (q.normalize).length = 1) := by
  constructor
  · intro q h
    unfold Quaternion.normalize
    rw [if_pos h]
  · intro q h
    have he : q.normalize = ⟨q.x * (1 / q.length), q.y * (1 / q.length),
        q.z * (1 / q.length), q.w * (1 / q.length)⟩ := by
      unfold Quaternion.normalize
      rw [if_neg h]
    refine ⟨he, ?_⟩
    have hpos : 0 < q.length := by
      rcases lt_or_eq_of_le (Real.sqrt_nonneg q.squaredLength) with hlt | heq
      · exact hlt
      · exact absurd heq.symm h
    have hsq : (q.normalize).squaredLength = (1 / q.length) ^ 2 * q.squaredLength := by
      rw [he]
      unfold Quaternion.squaredLength Quaternion.dot
      ring
    rw [Quaternion.length, hsq, Real.sqrt_mul (sq_nonneg _), Real.sqrt_sq_eq_abs]
    rw [abs_of_pos (by positivity)]
    rw [show Real.sqrt q.squaredLength = q.length from rfl]
    rw [one_div, inv_mul_cancel₀ (ne_of_gt hpos)]

theorem normalize_zero_yields_identity_witness :
    Quaternion.normalize ⟨0, 0, 0, 0⟩ = ⟨0, 0, 0, 1⟩ ∧
    (Quaternion.normalize ⟨0, 0, 0, 2⟩).length = 1 := by
  have h := normalize_zero_yields_identity
  constructor
  · refine h.1 ⟨0, 0, 0, 0⟩ ?_
    unfold Quaternion.length Quaternion.squaredLength Quaternion.dot
    norm_num
  · refine (h.2 ⟨0, 0, 0, 2⟩ ?_).2
    unfold Quaternion.length Quaternion.squaredLength Quaternion.dot
    rw [show ((0 : ℝ) * 0 + 0 * 0 + 0 * 0 + 2 * 2) = 2 ^ 2 by norm_num]
    rw [Real.sqrt_sq (by norm_num)]
    norm_num

theorem clamp_eq_self (v : ℝ) (h1 : -1 ≤ v) (h2 : v ≤ 1) : clamp v (-1) 1 = v := by
  unfold clamp
  rw [min_eq_left h2, max_eq_right h1]

theorem atan2_sqrt_arccos (c : ℝ) (h0 : 0 ≤ c) :
    atan2 (Real.sqrt (1 - c ^ 2)) c = Real.arccos c := by
  rcases lt_or_eq_of_le h0 with hpos | hzero
  · unfold atan2
    rw [if_pos hpos, Real.arccos_eq_arctan hpos]
  · rw [← hzero]
    unfold atan2
    norm_num [Real.sqrt_one, Real.arccos_zero]

theorem Quaternion.dot_sq_le_one (p q : Quaternion)
    (hp : p.squaredLength = 1) (hq : q.squaredLength = 1) :
    (p.dot q) ^ 2 ≤ 1 := by
  unfold Quaternion.squaredLength Quaternion.dot at *
  nlinarith [sq_nonneg (p.x * q.y - p.y * q.x), sq_nonneg (p.x * q.z - p.z * q.x),
    sq_nonneg (p.x * q.w - p.w * q.x), sq_nonneg (p.y * q.z - p.z * q.y),
    sq_nonneg (p.y * q.w - p.w * q.y), sq_nonneg (p.z * q.w - p.w * q.z)]

theorem lt_arccos_of_lt_cos {a y : ℝ} (ha1 : -1 ≤ a) (hy0 : 0 ≤ y) (hyp : y ≤ Real.pi)
    (h : a < Real.cos y) : y < Real.arccos a := by
  have h1 : Real.arccos (Real.cos y) = y := Real.arccos_cos hy0 hyp
  have h2 : Real.arccos (Real.cos y) < Real.arccos a :=
    Real.strictAntiOn_arccos
      ⟨ha1, le_trans (le_of_lt h) (Real.cos_le_one y)⟩
      ⟨Real.neg_one_le_cos y, Real.cos_le_one y⟩ h
  linarith

/-- The componentwise combination written by the final branch of slerp. -/
def slerpCombo (p u : Quaternion) (rA rB : ℝ) : Quaternion :=
  ⟨p.x * rA + u.x * rB, p.y * rA + u.y * rB,
   p.z * rA + u.z * rB, p.w * rA + u.w * rB⟩

theorem dot_slerpCombo_left (p u : Quaternion) (rA rB : ℝ) :
    p.dot (slerpCombo p u rA rB) = rA * p.squaredLength + rB * (p.dot u) := by
  unfold slerpCombo Quaternion.squaredLength Quaternion.dot
  ring

theorem dot_slerpCombo_right (p u : Quaternion) (rA rB : ℝ) :
    (slerpCombo p u rA rB).dot u = rA * (p.dot u) + rB * u.squaredLength := by
  unfold slerpCombo Quaternion.squaredLength Quaternion.dot
  ring

theorem ratio_identity_left (c t : ℝ) (h0c : 0 ≤ c) (h1c : c < 1) :
    Real.sin ((1 - t) * Real.arccos c) / Real.sqrt (1 - c ^ 2)
      + Real.sin (t * Real.arccos c) / Real.sqrt (1 - c ^ 2) * c
      = Real.cos (t * Real.arccos c) := by
  have hsq : 0 < 1 - c ^ 2 := by nlinarith
  have hne : Real.sqrt (1 - c ^ 2) ≠ 0 := ne_of_gt (Real.sqrt_pos.mpr hsq)
  have hs : Real.sin (Real.arccos c) = Real.sqrt (1 - c ^ 2) := Real.sin_arccos c
  have hcos : Real.cos (Real.arccos c) = c := Real.cos_arccos (by linarith) h1c.le
  rw [div_mul_eq_mul_div, div_add_div_same, div_eq_iff hne]
  rw [show (1 - t) * Real.arccos c = Real.arccos c - t * Real.arccos c by ring]
  rw [Real.sin_sub, hs, hcos]
  ring

theorem ratio_identity_right (c t : ℝ) (h0c : 0 ≤ c) (h1c : c < 1) :
    Real.sin ((1 - t) * Real.arccos c) / Real.sqrt (1 - c ^ 2) * c
      + Real.sin (t * Real.arccos c) / Real.sqrt (1 - c ^ 2)
      = Real.cos ((1 - t) * Real.arccos c) := by
  have hsq : 0 < 1 - c ^ 2 := by nlinarith
  have hne : Real.sqrt (1 - c ^ 2) ≠ 0 := ne_of_gt (Real.sqrt_pos.mpr hsq)
  have hs : Real.sin (Real.arccos c) = Real.sqrt (1 - c ^ 2) := Real.sin_arccos c
  have hcos : Real.cos (Real.arccos c) = c := Real.cos_arccos (by linarith) h1c.le
  have hss : Real.sqrt (1 - c ^ 2) ^ 2 = 1 - c ^ 2 := Real.sq_sqrt hsq.le
  rw [div_mul_eq_mul_div, div_add_div_same, div_eq_iff hne]
  rw [show (1 - t) * Real.arccos c = Real.arccos c - t * Real.arccos c by ring]
  rw [Real.sin_sub, Real.cos_sub, hs, hcos]
  linear_combination (-(Real.sin (t * Real.arccos c))) * hss

theorem slerp_eval_main (p q : Quaternion) (t : ℝ) (ht0 : t ≠ 0) (ht1 : t ≠ 1)
    (hflip : ¬ (p.w * q.w + p.x * q.x + p.y * q.y + p.z * q.z < 0))
    (hone : ¬ (1 ≤ p.w * q.w + p.x * q.x + p.y * q.y + p.z * q.z))
    (hsin : ¬ (|Real.sqrt
        (1 - (p.w * q.w + p.x * q.x + p.y * q.y + p.z * q.z) ^ 2)| < 0.001)) :
    p.slerp q t
      = slerpCombo p q
          (Real.sin ((1 - t) * atan2
              (Real.sqrt (1 - (p.w * q.w + p.x * q.x + p.y * q.y + p.z * q.z) ^ 2))
              (p.w * q.w + p.x * q.x + p.y * q.y + p.z * q.z))
            / Real.sqrt (1 - (p.w * q.w + p.x * q.x + p.y * q.y + p.z * q.z) ^ 2))
          (Real.sin (t * atan2
              (Real.sqrt (1 - (p.w * q.w + p.x * q.x + p.y * q.y + p.z * q.z) ^ 2))
              (p.w * q.w + p.x * q.x + p.y * q.y + p.z * q.z))
            / Real.sqrt (1 - (p.w * q.w + p.x * q.x + p.y * q.y + p.z * q.z) ^ 2)) := by
  unfold Quaternion.slerp slerpCombo
  rw [if_neg ht0, if_neg ht1]
  simp only [if_neg hflip, if_neg hone, if_neg hsin]

theorem slerp_eval_flip (p q : Quaternion) (t : ℝ) (ht0 : t ≠ 0) (ht1 : t ≠ 1)
    (hflip : p.w * q.w + p.x * q.x + p.y * q.y + p.z * q.z < 0)
    (hone : ¬ (1 ≤ -(p.w * q.w + p.x * q.x + p.y * q.y + p.z * q.z)))
    (hsin : ¬ (|Real.sqrt
        (1 - (-(p.w * q.w + p.x * q.x + p.y * q.y + p.z * q.z)) ^ 2)| < 0.001)) :
    p.slerp q t
      = slerpCombo p ⟨-q.x, -q.y, -q.z, -q.w⟩
          (Real.sin ((1 - t) * atan2
              (Real.sqrt
                (1 - (-(p.w * q.w + p.x * q.x + p.y * q.y + p.z * q.z)) ^ 2))
              (-(p.w * q.w + p.x * q.x + p.y * q.y + p.z * q.z)))
            / Real.sqrt
                (1 - (-(p.w * q.w + p.x * q.x + p.y * q.y + p.z * q.z)) ^ 2))
          (Real.sin (t * atan2
              (Real.sqrt
                (1 - (-(p.w * q.w + p.x * q.x + p.y * q.y + p.z * q.z)) ^ 2))
              (-(p.w * q.w + p.x * q.x + p.y * q.y + p.z * q.z)))
            / Real.sqrt
                (1 - (-(p.w * q.w + p.x * q.x + p.y * q.y + p.z * q.z)) ^ 2)) := by
  unfold Quaternion.slerp slerpCombo
  rw [if_neg ht0, if_neg ht1]
  simp only [if_pos hflip, if_neg hone, if_neg hsin]

theorem slerp_eval_fallback (p q : Quaternion) (t : ℝ) (ht0 : t ≠ 0) (ht1 : t ≠ 1)
    (hflip : ¬ (p.w * q.w + p.x * q.x + p.y * q.y + p.z * q.z < 0))
    (hone : ¬ (1 ≤ p.w * q.w + p.x * q.x + p.y * q.y + p.z * q.z))
    (hsin : |Real.sqrt
        (1 - (p.w * q.w + p.x * q.x + p.y * q.y + p.z * q.z) ^ 2)| < 0.001) :
    p.slerp q t
      = ⟨0.5 * (p.x + q.x), 0.5 * (p.y + q.y),
         0.5 * (p.z + q.z), 0.5 * (p.w + q.w)⟩ := by
  unfold Quaternion.slerp
  rw [if_neg ht0, if_neg ht1]
  simp only [if_neg hflip, if_neg hone, if_pos hsin]

theorem Quaternion.angleTo_nonneg (p q : Quaternion) : 0 ≤ p.angleTo q := by
  unfold Quaternion.angleTo
  exact mul_nonneg (by norm_num) (Real.arccos_nonneg _)

theorem angleTo_eq_of_abs_dot (a b : Quaternion) (y : ℝ)
    (hy0 : 0 ≤ y) (hyp : y ≤ Real.pi / 2)
    (h : |a.dot b| = Real.cos y) :
    a.angleTo b = 2 * y := by
  have hcos1 : Real.cos y ≤ 1 := Real.cos_le_one y
  have hcle : a.dot b ≤ 1 := le_trans (le_abs_self _) (le_of_eq_of_le h hcos1)
  have hcge : -1 ≤ a.dot b := by
    have h1 : -|a.dot b| ≤ a.dot b := neg_abs_le (a.dot b)
    have h2 : -1 ≤ -|a.dot b| := by rw [h]; linarith
    linarith
  unfold Quaternion.angleTo
  rw [clamp_eq_self _ hcge hcle, h]
  rw [Real.arccos_cos hy0 (by linarith [Real.pi_pos])]

/-- Claim C8 (amended): rotateTo never overshoots the target: when the angle
between the quaternions is 0 the quaternion is unchanged, and when step is
at least that angle the result is exactly the target rotation.  For a
partial step on unit quaternions the result lies exactly step radians along
the shortest rotational arc — the angle from the start to the result is step
and the angle from the result to the target is the remaining angle —
provided slerp does not take its near-aligned linear midpoint fallback, the
regime where sinHalfTheta is at least 0.001; inside the fallback regime
slerp averages the endpoints instead and the step bound can be exceeded. -/
theorem rotateTo_bounded_step (p q : Quaternion) (step : ℝ) :
    (p.angleTo q = 0 → p.rotateTo q step = p) ∧
    (p.angleTo q ≠ 0 → p.angleTo q ≤ step → p.rotateTo q step = q) ∧
    (p.squaredLength = 1 → q.squaredLength = 1 → 0 < step → step < p.angleTo q →
        0.001 ≤ Real.sqrt (1 - (p.dot q) ^ 2) →
        p.angleTo (p.rotateTo q step) = step ∧
        (p.rotateTo q step).angleTo q = p.angleTo q - step) := by
  refine ⟨?_, ?_, ?_⟩
  · intro h
    unfold Quaternion.rotateTo
    rw [if_pos h]
  · intro hne hle
    have hpos : 0 < p.angleTo q :=
      lt_of_le_of_ne (Quaternion.angleTo_nonneg p q) (Ne.symm hne)
    unfold Quaternion.rotateTo
    rw [if_neg hne]
    have ht : min 1 (step / p.angleTo q) = 1 :=
      min_eq_left ((one_le_div hpos).mpr hle)
    rw [ht]
    unfold Quaternion.slerp
    rw [if_neg one_ne_zero, if_pos rfl]
  · intro hp hq hstep hlt hsin
    have hd2 : 0 < 1 - (p.dot q) ^ 2 :=
      Real.sqrt_pos.mp (lt_of_lt_of_le (by norm_num) hsin)
    have habs : |p.dot q| < 1 :=
      abs_lt_of_sq_lt_sq (by nlinarith) (by norm_num)
    have hd1 : -1 ≤ p.dot q := by
      have h1 := (abs_lt.mp habs).1
      linarith
    have hd1p : p.dot q ≤ 1 := le_of_lt (abs_lt.mp habs).2
    have hangle : p.angleTo q = 2 * Real.arccos |p.dot q| := by
      unfold Quaternion.angleTo
      rw [clamp_eq_self _ hd1 hd1p]
    have hHpos : 0 < Real.arccos |p.dot q| := Real.arccos_pos.mpr habs
    have hHne : Real.arccos |p.dot q| ≠ 0 := ne_of_gt hHpos
    have hHle : Real.arccos |p.dot q| ≤ Real.pi / 2 :=
      Real.arccos_le_pi_div_two.mpr (abs_nonneg _)
    have hanglepos : 0 < p.angleTo q := lt_trans hstep hlt
    have hanne : p.angleTo q ≠ 0 := ne_of_gt hanglepos
    have htlt : step / p.angleTo q < 1 := (div_lt_one hanglepos).mpr hlt
    have htpos : 0 < step / p.angleTo q := div_pos hstep hanglepos
    have hmin : min 1 (step / p.angleTo q) = step / p.angleTo q :=
      min_eq_right htlt.le
    have hrot : p.rotateTo q step = p.slerp q (step / p.angleTo q) := by
      unfold Quaternion.rotateTo
      rw [if_neg hanne, hmin]
    have hc0d : p.w * q.w + p.x * q.x + p.y * q.y + p.z * q.z = p.dot q := by
      unfold Quaternion.dot
      ring
    have hyval : step / p.angleTo q * Real.arccos |p.dot q| = step / 2 := by
      rw [hangle]
      field_simp
      ring
    have hyval2 : (1 - step / p.angleTo q) * Real.arccos |p.dot q|
        = (p.angleTo q - step) / 2 := by
      rw [hangle]
      field_simp
      ring
    have hy0 : 0 ≤ step / 2 := by linarith
    have hyp2 : step / 2 ≤ Real.pi / 2 := by
      have h1 : step / 2 < Real.arccos |p.dot q| := by
        rw [hangle] at hlt
        linarith
      linarith
    have hz0 : 0 ≤ (p.angleTo q - step) / 2 := by linarith
    have hzp : (p.angleTo q - step) / 2 ≤ Real.pi / 2 := by
      have h1 : (p.angleTo q - step) / 2 ≤ Real.arccos |p.dot q| := by
        rw [hangle]
        linarith
      linarith
    have hcos1nn : 0 ≤ Real.cos (step / 2) :=
      Real.cos_nonneg_of_mem_Icc ⟨by linarith, hyp2⟩
    have hcos2nn : 0 ≤ Real.cos ((p.angleTo q - step) / 2) :=
      Real.cos_nonneg_of_mem_Icc ⟨by linarith, hzp⟩
    rcases lt_or_ge (p.dot q) 0 with hdlt | hdge
    · -- shortest-path sign flip branch
      have habsd : |p.dot q| = -(p.dot q) := abs_of_neg hdlt
      rw [habsd] at hyval hyval2
      have hscore : 0 ≤ -(p.dot q) := by linarith
      have hlt1 : -(p.dot q) < 1 := by
        have h1 := (abs_lt.mp habs).1
        linarith
      have hu : (Quaternion.mk (-q.x) (-q.y) (-q.z) (-q.w)).squaredLength = 1 := by
        have h1 : (Quaternion.mk (-q.x) (-q.y) (-q.z) (-q.w)).squaredLength
            = q.squaredLength := by
          unfold Quaternion.squaredLength Quaternion.dot
          ring
        rw [h1, hq]
      have hpu : p.dot (Quaternion.mk (-q.x) (-q.y) (-q.z) (-q.w)) = -(p.dot q) := by
        unfold Quaternion.dot
        ring
      have heval := slerp_eval_flip p q (step / p.angleTo q)
        (ne_of_gt htpos) (ne_of_lt htlt)
        (by rw [hc0d]; exact hdlt)
        (by rw [hc0d]; exact not_le.mpr hlt1)
        (by
          rw [hc0d, abs_of_nonneg (Real.sqrt_nonneg _),
            show (1 - (-(p.dot q)) ^ 2) = 1 - (p.dot q) ^ 2 by ring]
          exact not_lt.mpr hsin)
      rw [hc0d, atan2_sqrt_arccos (-(p.dot q)) hscore] at heval
      have hdot1 : p.dot (p.slerp q (step / p.angleTo q))
          = Real.cos (step / p.angleTo q * Real.arccos (-(p.dot q))) := by
        rw [heval, dot_slerpCombo_left, hp, mul_one, hpu]
        exact ratio_identity_left (-(p.dot q)) _ hscore hlt1
      have hdotu : (p.slerp q (step / p.angleTo q)).dot
          (Quaternion.mk (-q.x) (-q.y) (-q.z) (-q.w))
          = Real.cos ((1 - step / p.angleTo q) * Real.arccos (-(p.dot q))) := by
        rw [heval, dot_slerpCombo_right, hu, mul_one, hpu]
        exact ratio_identity_right (-(p.dot q)) _ hscore hlt1
      have hdot2 : (p.slerp q (step / p.angleTo q)).dot q
          = -Real.cos ((1 - step / p.angleTo q) * Real.arccos (-(p.dot q))) := by
        have hneg : (p.slerp q (step / p.angleTo q)).dot q
            = -((p.slerp q (step / p.angleTo q)).dot
                (Quaternion.mk (-q.x) (-q.y) (-q.z) (-q.w))) := by
          unfold Quaternion.dot
          ring
        rw [hneg, hdotu]
      constructor
      · rw [hrot]
        have hfin := angleTo_eq_of_abs_dot p (p.slerp q (step / p.angleTo q))
          (step / 2) hy0 hyp2
          (by rw [hdot1, hyval]; exact abs_of_nonneg hcos1nn)
        rw [hfin]
        ring
      · rw [hrot]
        have hfin := angleTo_eq_of_abs_dot (p.slerp q (step / p.angleTo q)) q
          ((p.angleTo q - step) / 2) hz0 hzp
          (by rw [hdot2, hyval2, abs_neg]; exact abs_of_nonneg hcos2nn)
        rw [hfin]
        ring
    · -- no sign flip
      have habsd : |p.dot q| = p.dot q := abs_of_nonneg hdge
      rw [habsd] at hyval hyval2
      have hlt1 : p.dot q < 1 := lt_of_le_of_lt (le_abs_self _) habs
      have heval := slerp_eval_main p q (step / p.angleTo q)
        (ne_of_gt htpos) (ne_of_lt htlt)
        (by rw [hc0d]; exact not_lt.mpr hdge)
        (by rw [hc0d]; exact not_le.mpr hlt1)
        (by
          rw [hc0d, abs_of_nonneg (Real.sqrt_nonneg _)]
          exact not_lt.mpr hsin)
      rw [hc0d, atan2_sqrt_arccos (p.dot q) hdge] at heval
      have hdot1 : p.dot (p.slerp q (step / p.angleTo q))
          = Real.cos (step / p.angleTo q * Real.arccos (p.dot q)) := by
        rw [heval, dot_slerpCombo_left, hp, mul_one]
        exact ratio_identity_left (p.dot q) _ hdge hlt1
      have hdot2 : (p.slerp q (step / p.angleTo q)).dot q
          = Real.cos ((1 - step / p.angleTo q) * Real.arccos (p.dot q)) := by
        rw [heval, dot_slerpCombo_right, hq, mul_one]
        exact ratio_identity_right (p.dot q) _ hdge hlt1
      constructor
      · rw [hrot]
        have hfin := angleTo_eq_of_abs_dot p (p.slerp q (step / p.angleTo q))
          (step / 2) hy0 hyp2
          (by rw [hdot1, hyval]; exact abs_of_nonneg hcos1nn)
        rw [hfin]
        ring
      · rw [hrot]
        have hfin := angleTo_eq_of_abs_dot (p.slerp q (step / p.angleTo q)) q
          ((p.angleTo q - step) / 2) hz0 hzp
          (by rw [hdot2, hyval2]; exact abs_of_nonneg hcos2nn)
        rw [hfin]
        ring

theorem rotateTo_bounded_step_witness :
    Quaternion.rotateTo ⟨0, 0, 0, 1⟩ ⟨0, 0, 0, 1⟩ 1 = ⟨0, 0, 0, 1⟩ ∧
    Quaternion.rotateTo ⟨0, 0, 0, 1⟩ ⟨1, 0, 0, 0⟩ 4 = ⟨1, 0, 0, 0⟩ := by
  have hang0 : Quaternion.angleTo ⟨0, 0, 0, 1⟩ ⟨0, 0, 0, 1⟩ = 0 := by
    unfold Quaternion.angleTo Quaternion.dot clamp
    norm_num [Real.arccos_one]
  have hangpi : Quaternion.angleTo ⟨0, 0, 0, 1⟩ ⟨1, 0, 0, 0⟩ = Real.pi := by
    unfold Quaternion.angleTo Quaternion.dot clamp
    norm_num [Real.arccos_zero]
    ring
  constructor
  · exact (rotateTo_bounded_step ⟨0, 0, 0, 1⟩ ⟨0, 0, 0, 1⟩ 1).1 hang0
  · exact (rotateTo_bounded_step ⟨0, 0, 0, 1⟩ ⟨1, 0, 0, 0⟩ 4).2.1
      (by rw [hangpi]; exact Real.pi_ne_zero)
      (by rw [hangpi]; exact Real.pi_le_four)

/-- Claim C8 as stated is false on the code: for the unit quaternions p with
components (4002/4004002, 0, 0, 4004000/4004002) and the identity target,
whose angle is about 0.002 radians, rotateTo with step 1/2000 lands in the
near-aligned linear fallback of slerp, which jumps to the midpoint of the
two rotations; the resulting rotation from p exceeds the requested step. -/
theorem rotateTo_overshoots_counterexample :
    ¬ (Quaternion.angleTo ⟨4002 / 4004002, 0, 0, 4004000 / 4004002⟩
        (Quaternion.rotateTo ⟨4002 / 4004002, 0, 0, 4004000 / 4004002⟩
          ⟨0, 0, 0, 1⟩ (1 / 2000))
        ≤ 1 / 2000) := by
  have hcosb : (1 : ℝ) - (1 / 4000) ^ 2 / 2 < Real.cos (1 / 4000) :=
    Real.one_sub_sq_div_two_lt_cos (by norm_num)
  have hpi : (1 : ℝ) / 4000 ≤ Real.pi := by
    have := Real.pi_gt_three
    linarith
  have harc1 : (1 : ℝ) / 4000 < Real.arccos (4004000 / 4004002) :=
    lt_arccos_of_lt_cos (by norm_num) (by norm_num) hpi (by
      have hnum : (4004000 : ℝ) / 4004002 < 1 - (1 / 4000) ^ 2 / 2 := by norm_num
      linarith)
  have harc2 : (1 : ℝ) / 4000 < Real.arccos (4004001 / 4004002) :=
    lt_arccos_of_lt_cos (by norm_num) (by norm_num) hpi (by
      have hnum : (4004001 : ℝ) / 4004002 < 1 - (1 / 4000) ^ 2 / 2 := by norm_num
      linarith)
  have hangle : Quaternion.angleTo ⟨4002 / 4004002, 0, 0, 4004000 / 4004002⟩
      ⟨0, 0, 0, 1⟩ = 2 * Real.arccos (4004000 / 4004002) := by
    unfold Quaternion.angleTo Quaternion.dot clamp
    rw [show ((4002 : ℝ) / 4004002 * 0 + 0 * 0 + 0 * 0 + 4004000 / 4004002 * 1)
        = 4004000 / 4004002 by norm_num]
    rw [min_eq_left (by norm_num), max_eq_right (by norm_num),
      abs_of_nonneg (by norm_num)]
  have hanne : Quaternion.angleTo ⟨4002 / 4004002, 0, 0, 4004000 / 4004002⟩
      ⟨0, 0, 0, 1⟩ ≠ 0 := by
    rw [hangle]
    have : (0 : ℝ) < Real.arccos (4004000 / 4004002) := by linarith
    linarith
  have hsteplt : (1 : ℝ) / 2000
      < Quaternion.angleTo ⟨4002 / 4004002, 0, 0, 4004000 / 4004002⟩
          ⟨0, 0, 0, 1⟩ := by
    rw [hangle]
    linarith
  have hanglepos : (0 : ℝ)
      < Quaternion.angleTo ⟨4002 / 4004002, 0, 0, 4004000 / 4004002⟩
          ⟨0, 0, 0, 1⟩ := by
    rw [hangle]
    linarith
  have htlt : (1 : ℝ) / 2000
      / Quaternion.angleTo ⟨4002 / 4004002, 0, 0, 4004000 / 4004002⟩ ⟨0, 0, 0, 1⟩
      < 1 := (div_lt_one hanglepos).mpr hsteplt
  have htpos : (0 : ℝ)
      < 1 / 2000
        / Quaternion.angleTo ⟨4002 / 4004002, 0, 0, 4004000 / 4004002⟩
            ⟨0, 0, 0, 1⟩ := div_pos (by norm_num) hanglepos
  have hmid := slerp_eval_fallback
    ⟨4002 / 4004002, 0, 0, 4004000 / 4004002⟩ ⟨0, 0, 0, 1⟩
    (1 / 2000
      / Quaternion.angleTo ⟨4002 / 4004002, 0, 0, 4004000 / 4004002⟩ ⟨0, 0, 0, 1⟩)
    (ne_of_gt htpos) (ne_of_lt htlt)
    (by norm_num) (by norm_num)
    (by
      rw [show (1 - ((4004000 : ℝ) / 4004002 * 1 + 4002 / 4004002 * 0 + 0 * 0
          + 0 * 0) ^ 2) = (4002 / 4004002) ^ 2 by norm_num]
      rw [Real.sqrt_sq (by norm_num), abs_of_nonneg (by norm_num)]
      norm_num)
  have hrot : Quaternion.rotateTo ⟨4002 / 4004002, 0, 0, 4004000 / 4004002⟩
      ⟨0, 0, 0, 1⟩ (1 / 2000)
      = ⟨0.5 * (4002 / 4004002 + 0), 0.5 * (0 + 0), 0.5 * (0 + 0),
          0.5 * (4004000 / 4004002 + 1)⟩ := by
    unfold Quaternion.rotateTo
    rw [if_neg hanne, min_eq_right htlt.le, hmid]
  have hang2 : Quaternion.angleTo ⟨4002 / 4004002, 0, 0, 4004000 / 4004002⟩
      (⟨0.5 * (4002 / 4004002 + 0), 0.5 * (0 + 0), 0.5 * (0 + 0),
          0.5 * (4004000 / 4004002 + 1)⟩ : Quaternion)
      = 2 * Real.arccos (4004001 / 4004002) := by
    unfold Quaternion.angleTo Quaternion.dot clamp
    rw [show ((4002 : ℝ) / 4004002 * (0.5 * (4002 / 4004002 + 0))
        + 0 * (0.5 * (0 + 0)) + 0 * (0.5 * (0 + 0))
        + 4004000 / 4004002 * (0.5 * (4004000 / 4004002 + 1)))
        = 4004001 / 4004002 by norm_num]
    rw [min_eq_left (by norm_num), max_eq_right (by norm_num),
      abs_of_nonneg (by norm_num)]
  rw [hrot, hang2]
  push_neg
  linarith
